import Mathlib

/-!
Verification of the eBay speaker-deal scraper (`src/ebay_speaker_scraper.py`).

The Python source is shallowly embedded: each pure function of the script
becomes a Lean definition over `List Char` / `String`, Python floats are
modelled by `Rat` (all prices manipulated by the script are short decimal
numerals, represented exactly), a listing dictionary becomes the structure
`Listing`, and the fallible call `float(...)` is modelled by an `Option`
result, with `Except Unit` tracking a raised `ValueError`.

Characters are compared as Unicode code points; `str.lower()` is modelled by
the ASCII case map (all literals the script compares against are ASCII).
-/

/-- Python's `needle in hay` substring test, on character lists:
`startsWithCh pat l` checks that `pat` is an initial segment of `l`. -/
def startsWithCh : List Char → List Char → Bool
  | [], _ => true
  | _ :: _, [] => false
  | a :: as, b :: bs => a == b && startsWithCh as bs

/-- Python's `needle in hay` contiguous-substring containment on lists. -/
def containsCh (needle : List Char) : List Char → Bool
  | [] => startsWithCh needle []
  | c :: cs => startsWithCh needle (c :: cs) || containsCh needle cs

/-- `hay.contains(needle)` / Python `needle in hay` on strings. -/
def strContains (hay needle : String) : Bool :=
  containsCh needle.data hay.data

/-- Python `s.lower()` (ASCII case map, which covers every literal the
script lowercases against). -/
def lowerStr (s : String) : String :=
  ⟨s.data.map Char.toLower⟩

/-- Python `s.startswith(pre)`. -/
def strStartsWith (s pre : String) : Bool :=
  startsWithCh pre.data s.data

/-! ## Price Parser (`parse_price`, source lines 57–63)

`re.findall(r"\$[\d,]+\.?\d*", text)` is modelled by `findPrices`: the
scanner walks left to right; at each `'$'` it tries the rest of the
pattern (`[\d,]+` greedy, then an optional `'.'`, then `\d*` greedy — no
backtracking is possible for this pattern since the trailing parts are
optional), emits the match and resumes after it (non-overlapping), and
otherwise advances one character. -/

/-- Match the regex tail `[\d,]+\.?\d*` at the start of `cs` (the text just
after a `'$'`); returns the whole matched token (including the `'$'`) and
the remaining text, or `none` when `[\d,]+` cannot match. -/
def priceTokenAfterDollar (cs : List Char) : Option (List Char × List Char) :=
  let run1 := cs.takeWhile (fun c => c.isDigit || c == ',')
  if run1.isEmpty then none
  else
    match cs.drop run1.length with
    | '.' :: rest2 =>
        let run2 := rest2.takeWhile Char.isDigit
        some ('$' :: run1 ++ '.' :: run2, rest2.drop run2.length)
    | rest1 => some ('$' :: run1, rest1)

theorem priceTokenAfterDollar_rem_length {cs tok rem : List Char}
    (h : priceTokenAfterDollar cs = some (tok, rem)) : rem.length ≤ cs.length := by
  have hd : (cs.drop (cs.takeWhile (fun c => c.isDigit || c == ',')).length).length ≤ cs.length := by
    simp [List.length_drop]
  simp only [priceTokenAfterDollar] at h
  split at h
  · exact absurd h (by simp)
  · split at h
    next rest2 heq =>
      simp only [Option.some.injEq, Prod.mk.injEq] at h
      rw [heq] at hd
      have h2 : (rest2.drop (rest2.takeWhile Char.isDigit).length).length ≤ rest2.length := by
        simp [List.length_drop]
      rw [h.2] at h2
      simp only [List.length_cons] at hd
      omega
    next rest1 _ =>
      simp only [Option.some.injEq, Prod.mk.injEq] at h
      rw [← h.2]
      exact hd

/-- Fuelled scanner for `re.findall(r"\$[\d,]+\.?\d*", text)`: left-to-right,
non-overlapping greedy matches.  The fuel only serves structural
recursion; `findPricesAux_fuel` shows any fuel ≥ the text length gives the
same result, so `findPrices` is fuel-independent. -/
def findPricesAux : Nat → List Char → List (List Char)
  | 0, _ => []
  | _ + 1, [] => []
  | fuel + 1, c :: rest =>
    if c = '$' then
      match priceTokenAfterDollar rest with
      | some (tok, rem) => tok :: findPricesAux fuel rem
      | none => findPricesAux fuel rest
    else findPricesAux fuel rest

/-- `re.findall(r"\$[\d,]+\.?\d*", text)` on the character list of `text`. -/
def findPrices (cs : List Char) : List (List Char) :=
  findPricesAux cs.length cs

theorem findPricesAux_fuel {f1 f2 : Nat} (cs : List Char)
    (h1 : cs.length ≤ f1) (h2 : cs.length ≤ f2) :
    findPricesAux f1 cs = findPricesAux f2 cs := by
  induction f1 using Nat.strong_induction_on generalizing cs f2 with
  | _ f1 ih =>
    match f1, cs, f2 with
    | 0, cs, f2 =>
      have : cs = [] := List.eq_nil_of_length_eq_zero (Nat.le_zero.mp h1)
      subst this
      cases f2 <;> rfl
    | f1 + 1, [], f2 => cases f2 <;> rfl
    | f1 + 1, c :: rest, 0 => simp at h2
    | f1 + 1, c :: rest, f2 + 1 =>
      simp only [List.length_cons, Nat.add_le_add_iff_right] at h1 h2
      simp only [findPricesAux]
      by_cases hc : c = '$'
      · simp only [hc, if_true]
        cases htok : priceTokenAfterDollar rest with
        | some pr =>
          obtain ⟨tok, rem⟩ := pr
          have hr := priceTokenAfterDollar_rem_length htok
          show tok :: findPricesAux f1 rem = tok :: findPricesAux f2 rem
          rw [ih f1 (Nat.lt_succ_self f1) rem (Nat.le_trans hr h1) (Nat.le_trans hr h2)]
        | none =>
          show findPricesAux f1 rest = findPricesAux f2 rest
          rw [ih f1 (Nat.lt_succ_self f1) rest h1 h2]
      · simp only [hc, if_false]
        rw [ih f1 (Nat.lt_succ_self f1) rest h1 h2]

/-- `s.replace("$", "").replace(",", "")` on character lists. -/
def stripDollarComma (cs : List Char) : List Char :=
  cs.filter (fun c => !(c == '$') && !(c == ','))

/-- Numeric value of a digit list (most significant first). -/
def natOfDigits (cs : List Char) : Nat :=
  cs.foldl (fun n c => n * 10 + (c.toNat - 48)) 0

/-- Python's `float(s)`, modelled on the strings this script can pass to it:
`stripDollarComma` applied to a regex match always yields a (possibly empty)
string of decimal digits containing at most one `'.'`.  On that domain
`float` succeeds exactly when at least one digit is present, and the value
is the decimal numeral's value (represented exactly as a rational; every
such numeral is a short decimal so no behavioural difference with binary
floating point arises in this development's comparisons).  `none` models a
raised `ValueError`. -/
def pyFloat (cs : List Char) : Option Rat :=
  let ip := cs.takeWhile Char.isDigit
  match cs.drop ip.length with
  | [] => if ip.isEmpty then none else some (natOfDigits ip)
  | '.' :: rest =>
      let fp := rest.takeWhile Char.isDigit
      if rest.drop fp.length = [] && !(ip.isEmpty && fp.isEmpty) then
        some (mkRat (natOfDigits ip * 10 ^ fp.length + natOfDigits fp) (10 ^ fp.length))
      else none
  | _ => none

/-- `parse_price` (source lines 57–63).  `Except.error ()` models an
uncaught `ValueError` escaping from `float(...)`; `Except.ok none` is the
explicit `return None` for texts without a match; `Except.ok (some r)` is a
parsed price. -/
def parse_price (text : String) : Except Unit (Option Rat) :=
  match findPrices text.data with
  | [] => .ok none
  | p :: _ =>
    match pyFloat (stripDollarComma p) with
    | some r => .ok (some r)
    | none => .error ()

example : parse_price "$149.99" = .ok (some (mkRat 14999 100)) := rfl
example : parse_price "$80.00 to $120.00" = .ok (some 80) := rfl
example : parse_price "no price here" = .ok none := rfl
example : parse_price "$," = .error () := rfl
example : parse_price "$,5" = .ok (some 5) := rfl
example : parse_price "$1,234.50" = .ok (some (mkRat 123450 100)) := rfl

/-! ## Deal Scorer (source lines 27–32, 66–69, 112–125) -/

/-- `QUALITY_BRANDS` (source lines 27–32). -/
def QUALITY_BRANDS : List String :=
  ["bose", "sonos", "klipsch", "polk", "yamaha", "denon", "sony",
   "jbl", "harman kardon", "samsung", "lg", "onkyo", "pioneer",
   "definitive technology", "svs", "kef", "b&w", "bowers", "paradigm",
   "martin logan", "elac", "monoprice", "vizio", "enclave"]

/-- `is_quality_brand` (source lines 66–69). -/
def is_quality_brand (title : String) : Bool :=
  QUALITY_BRANDS.any (fun brand => strContains (lowerStr title) brand)

/-- The deal-score computation of `scrape_listings` (source lines 112–125),
as the same sequence of conditional increments. -/
def deal_score (title shipping condition : String) (price : Rat) : Nat :=
  let brand_match := is_quality_brand title
  let free_shipping := strContains (lowerStr shipping) "free"
  let s0 : Nat := 0
  let s1 := if brand_match then s0 + 3 else s0
  let s2 := if free_shipping then s1 + 2 else s1
  let s3 := if price < 200 then s2 + 2 else if price < 350 then s2 + 1 else s2
  let s4 := if strContains (lowerStr condition) "new" ||
               strContains (lowerStr condition) "open box" then s3 + 1 else s3
  s4

/-- One listing dictionary, as appended at source lines 127–135. -/
structure Listing where
  title : String
  price : Rat
  shipping : String
  condition : String
  link : String
  brand_match : Bool
  deal_score : Nat
deriving DecidableEq

/-! ## Deduplicator (source lines 142–151) -/

/-- `item["link"].split("?")[0]`: the link up to (excluding) its first
`'?'`. -/
def canonKey (link : String) : String :=
  ⟨link.data.takeWhile (fun c => !(c == '?'))⟩

/-- The loop of `deduplicate` with its `seen` set of canonical keys. -/
def dedupGo (seen : List String) : List Listing → List Listing
  | [] => []
  | x :: xs =>
    if canonKey x.link ∈ seen then dedupGo seen xs
    else x :: dedupGo (canonKey x.link :: seen) xs

/-- `deduplicate` (source lines 142–151). -/
def deduplicate (listings : List Listing) : List Listing :=
  dedupGo [] listings

/-! ## Ranker/Reporter (source lines 167–179) -/

/-- The comparison corresponding to Python's stable sort with key
`(-deal_score, price)` (source line 168): `a` may precede `b` iff
`(-a.deal_score, a.price) ≤ (-b.deal_score, b.price)` lexicographically. -/
def rankLE (a b : Listing) : Bool :=
  (b.deal_score < a.deal_score) ||
    (a.deal_score == b.deal_score && decide (a.price ≤ b.price))

/-- `all_listings.sort(key=lambda x: (-x["deal_score"], x["price"]))`. -/
def rankSort (listings : List Listing) : List Listing :=
  listings.mergeSort rankLE

/-- `top = [l for l in all_listings if l["deal_score"] >= 3]`, with the
empty-case fallback `top = all_listings[:15]` (source lines 171–173). -/
def selectTop (ranked : List Listing) : List Listing :=
  let top := ranked.filter (fun l => decide (3 ≤ l.deal_score))
  if top.isEmpty then ranked.take 15 else top

/-- The rows actually rendered: `top[:20]` (source line 179). -/
def displayed (ranked : List Listing) : List Listing :=
  (selectTop ranked).take 20

/-! ## Listing Extractor (source lines 90–135)

A candidate `li.s-item` node is abstracted to the five pieces of data the
script reads from it: each `Option` is `none` when the corresponding
`select_one` returns no element (`get_text(strip=True)` of a present
element is an arbitrary string).  For the link element, the inner `Option`
is the `href` attribute: `linkHref? = some none` is a present `a` element
carrying no `href`, in which case `get("href", "")` yields `""`. -/
structure SItem where
  title? : Option String
  priceText? : Option String
  linkHref? : Option (Option String)
  shipping? : Option String
  condition? : Option String

/-- The body of the `for item in items` loop (source lines 90–135):
`Except.error ()` propagates a `ValueError` raised by `float`, `.ok none`
is a `continue` (node dropped), `.ok (some l)` a retained listing. -/
def extract_listing (it : SItem) : Except Unit (Option Listing) :=
  match it.title?, it.priceText?, it.linkHref? with
  | some title, some priceText, some href? =>
    if strStartsWith (lowerStr title) "shop on ebay" then .ok none
    else
      match parse_price priceText with
      | .error e => .error e
      | .ok none => .ok none
      | .ok (some price) =>
        let link := href?.getD ""
        let shipping := it.shipping?.getD "N/A"
        let condition := it.condition?.getD "N/A"
        .ok (some { title := title, price := price, shipping := shipping,
                    condition := condition, link := link,
                    brand_match := is_quality_brand title,
                    deal_score := deal_score title shipping condition price })
  | _, _, _ => .ok none

/-- Processing of one page's nodes in order, accumulating the retained
listings; a raised `ValueError` aborts the whole traversal, as an uncaught
exception would in the Python loop. -/
def extract_page : List SItem → Except Unit (List Listing)
  | [] => .ok []
  | it :: rest =>
    match extract_listing it with
    | .error e => .error e
    | .ok l? =>
      match extract_page rest with
      | .error e => .error e
      | .ok ls =>
        match l? with
        | some l => .ok (l :: ls)
        | none => .ok ls
example : parse_price "$" = .ok none := rfl

example : is_quality_brand "Bose Soundbar 700 Home Theater" = true := by decide
example : deal_score "Bose Soundbar 700 Home Theater" "Free shipping" "New (Other)" 180 = 8 := by decide
example : canonKey ".../itm/123?hash=abc" = ".../itm/123" := by decide
example : canonKey "" = "" := by decide

/-! ## Structural lemmas about regex matches -/

theorem takeWhile_eq_self_of_all {p : Char → Bool} :
    ∀ {A : List Char}, (∀ x ∈ A, p x = true) → A.takeWhile p = A
  | [], _ => rfl
  | a :: as, h => by
    simp only [List.takeWhile_cons, h a (List.mem_cons_self a as)]
    exact congrArg (a :: ·) (takeWhile_eq_self_of_all fun x hx => h x (List.mem_cons_of_mem a hx))

theorem takeWhile_append_stop {p : Char → Bool} {c : Char} {l : List Char} (hc : p c = false) :
    ∀ {A : List Char}, (∀ x ∈ A, p x = true) → (A ++ c :: l).takeWhile p = A
  | [], _ => by simp [List.takeWhile_cons, hc]
  | a :: as, h => by
    simp only [List.cons_append, List.takeWhile_cons, h a (List.mem_cons_self a as)]
    exact congrArg (a :: ·) (takeWhile_append_stop hc fun x hx => h x (List.mem_cons_of_mem a hx))

theorem drop_length_append {l2 : List Char} :
    ∀ {l1 : List Char}, (l1 ++ l2).drop l1.length = l2
  | [] => rfl
  | _ :: as => @drop_length_append l2 as

/-- The characters admitted by `[\d,]` are digits or commas. -/
theorem mem_digitComma_run {cs : List Char} {x : Char}
    (hx : x ∈ cs.takeWhile (fun c => c.isDigit || c == ',')) :
    x.isDigit = true ∨ x = ',' := by
  have h := List.mem_takeWhile_imp (p := fun c => c.isDigit || c == ',') hx
  simp only [Bool.or_eq_true, beq_iff_eq] at h
  exact h

/-- Digits survive `stripDollarComma`; commas do not. -/
theorem filter_strip_digitComma {run1 : List Char}
    (h : ∀ x ∈ run1, x.isDigit = true ∨ x = ',') :
    run1.filter (fun c => !(c == '$') && !(c == ',')) = run1.filter Char.isDigit := by
  apply List.filter_congr
  intro x hx
  rcases h x hx with hx2 | hx2
  · have hne1 : (x == '$') = false := by
      cases hbe : x == '$' with
      | false => rfl
      | true => rw [beq_iff_eq.mp hbe] at hx2; exact absurd hx2 (by decide)
    have hne2 : (x == ',') = false := by
      cases hbe : x == ',' with
      | false => rfl
      | true => rw [beq_iff_eq.mp hbe] at hx2; exact absurd hx2 (by decide)
    simp [hne1, hne2, hx2]
  · subst hx2
    decide

/-- An all-digit list passes `stripDollarComma` unchanged. -/
theorem filter_strip_digits {d : List Char} (h : ∀ x ∈ d, x.isDigit = true) :
    d.filter (fun c => !(c == '$') && !(c == ',')) = d := by
  apply List.filter_eq_self.mpr
  intro a ha
  have hd := h a ha
  have h1 : (a == '$') = false := by
    cases hbe : a == '$' with
    | false => rfl
    | true => rw [beq_iff_eq.mp hbe] at hd; exact absurd hd (by decide)
  have h2 : (a == ',') = false := by
    cases hbe : a == ',' with
    | false => rfl
    | true => rw [beq_iff_eq.mp hbe] at hd; exact absurd hd (by decide)
  simp [h1, h2]

/-- On a token produced by the regex matcher, stripping `'$'` and `','`
leaves a numeral `float` accepts, provided the token has a digit at all. -/
theorem priceTok_strip_pyFloat {cs tok rem : List Char}
    (h : priceTokenAfterDollar cs = some (tok, rem)) (hdig : tok.any Char.isDigit = true) :
    ∃ r, pyFloat (stripDollarComma tok) = some r := by
  simp only [priceTokenAfterDollar] at h
  split at h
  · exact absurd h (by simp)
  next hne =>
    have hrun1 : ∀ x ∈ cs.takeWhile (fun c => c.isDigit || c == ','), x.isDigit = true ∨ x = ',' :=
      fun x hx => mem_digitComma_run hx
    set run1 := cs.takeWhile (fun c => c.isDigit || c == ',') with hrun1def
    split at h
    next rest2 heq =>
      set run2 := rest2.takeWhile Char.isDigit with hrun2def
      have hrun2 : ∀ x ∈ run2, x.isDigit = true :=
        fun x hx => List.mem_takeWhile_imp (p := Char.isDigit) hx
      simp only [Option.some.injEq, Prod.mk.injEq] at h
      obtain ⟨htok, -⟩ := h
      subst htok
      have hstrip : stripDollarComma ('$' :: run1 ++ '.' :: run2) =
          run1.filter Char.isDigit ++ '.' :: run2 := by
        show List.filter _ _ = _
        rw [List.cons_append, List.filter_cons, if_neg (by decide), List.filter_append,
          List.filter_cons, if_pos (by decide), filter_strip_digitComma hrun1,
          filter_strip_digits hrun2]
      rw [hstrip]
      have hA : ∀ x ∈ run1.filter Char.isDigit, x.isDigit = true :=
        fun x hx => (List.mem_filter.mp hx).2
      have hip : (run1.filter Char.isDigit ++ '.' :: run2).takeWhile Char.isDigit =
          run1.filter Char.isDigit := takeWhile_append_stop (by decide) hA
      have hnonempty : ((run1.filter Char.isDigit).isEmpty && run2.isEmpty) = false := by
        simp only [List.any_eq_true] at hdig
        obtain ⟨x, hx, hxd⟩ := hdig
        rcases List.mem_cons.mp hx with rfl | hx2
        · exact absurd hxd (by decide)
        · rcases List.mem_append.mp hx2 with hx3 | hx3
          · have hmem : x ∈ run1.filter Char.isDigit := List.mem_filter.mpr ⟨hx3, hxd⟩
            have hne3 : run1.filter Char.isDigit ≠ [] := List.ne_nil_of_mem hmem
            simp [hne3]
          · rcases List.mem_cons.mp hx3 with rfl | hx4
            · exact absurd hxd (by decide)
            · have hne3 : run2 ≠ [] := List.ne_nil_of_mem hx4
              simp [hne3]
      simp only [pyFloat, hip, drop_length_append]
      rw [takeWhile_eq_self_of_all hrun2, List.drop_length]
      simp only [hnonempty]
      simp
    next rest1 hnotdot =>
      simp only [Option.some.injEq, Prod.mk.injEq] at h
      obtain ⟨htok, -⟩ := h
      subst htok
      have hstrip : stripDollarComma ('$' :: run1) = run1.filter Char.isDigit := by
        show List.filter _ _ = _
        rw [List.filter_cons, if_neg (by decide), filter_strip_digitComma hrun1]
      rw [hstrip]
      have hA : ∀ x ∈ run1.filter Char.isDigit, x.isDigit = true :=
        fun x hx => (List.mem_filter.mp hx).2
      have hne2 : (run1.filter Char.isDigit).isEmpty = false := by
        simp only [List.any_eq_true] at hdig
        obtain ⟨x, hx, hxd⟩ := hdig
        rcases List.mem_cons.mp hx with rfl | hx2
        · exact absurd hxd (by decide)
        · have hmem : x ∈ run1.filter Char.isDigit := List.mem_filter.mpr ⟨hx2, hxd⟩
          have hne3 : run1.filter Char.isDigit ≠ [] := List.ne_nil_of_mem hmem
          simp [hne3]
      simp only [pyFloat, takeWhile_eq_self_of_all hA, List.drop_length, hne2]
      simp

/-- Every match emitted by the scanner arises from `priceTokenAfterDollar`. -/
theorem mem_findPricesAux {fuel : Nat} :
    ∀ {cs tok : List Char}, tok ∈ findPricesAux fuel cs →
      ∃ cs2 rem, priceTokenAfterDollar cs2 = some (tok, rem) := by
  induction fuel with
  | zero => intro cs tok h; simp [findPricesAux] at h
  | succ f ih =>
    intro cs tok h
    cases cs with
    | nil => simp [findPricesAux] at h
    | cons c rest =>
      simp only [findPricesAux] at h
      by_cases hc : c = '$'
      · rw [if_pos hc] at h
        cases htok : priceTokenAfterDollar rest with
        | some pr =>
          obtain ⟨tok2, rem⟩ := pr
          rw [htok] at h
          rcases List.mem_cons.mp h with rfl | h2
          · exact ⟨rest, rem, htok⟩
          · exact ih h2
        | none =>
          rw [htok] at h
          exact ih h
      · rw [if_neg hc] at h
        exact ih h

theorem mem_findPrices {cs tok : List Char} (h : tok ∈ findPrices cs) :
    ∃ cs2 rem, priceTokenAfterDollar cs2 = some (tok, rem) :=
  mem_findPricesAux h

/-- The claim's own description of a currency-amount substring — "a dollar
sign followed by digits, optional thousands separators, optional decimal
fraction" — requires a digit directly after the dollar sign; a text
contains such a substring iff some `'$'` is immediately followed by a
digit. -/
def hasDollarDigit : List Char → Bool
  | a :: b :: rest => (a == '$' && b.isDigit) || hasDollarDigit (b :: rest)
  | _ => false

example : hasDollarDigit "$80.00 to $120.00".data = true := by decide
example : hasDollarDigit "$,5".data = false := by decide
example : hasDollarDigit "$,".data = false := by decide

/-- C1 (counterexample): the text `"$,5"` contains no currency-amount
substring in the claim's sense (no dollar sign is followed by digits), so
the claim requires `parse_price` to return `None`; the code instead matches
`"$,5"` (its pattern also admits commas directly after the `'$'`) and
returns `5.0`. -/
theorem parse_price_claim_counterexample :
    hasDollarDigit "$,5".data = false ∧
    parse_price "$,5" = .ok (some 5) ∧
    (Except.ok (some (5 : Rat)) : Except Unit (Option Rat)) ≠ .ok none :=
  ⟨by decide, rfl, by simp⟩

/-- C1 (amended): for every price text, if the code's pattern
`\$[\d,]+\.?\d*` (leftmost non-overlapping matches) finds no match,
`parse_price` returns `None`; if it finds at least one match and the first
match contains a digit, `parse_price` returns the numeric value of that
first match with the `'$'` symbol and `','` separators removed (the lower
bound when the text expresses a range).  (When the first match contains no
digit `parse_price` instead raises — see the companion totality result.) -/
theorem parse_price_amended (text : String) :
    (findPrices text.data = [] → parse_price text = .ok none) ∧
    (∀ p ps, findPrices text.data = p :: ps → p.any Char.isDigit = true →
      ∃ r, pyFloat (stripDollarComma p) = some r ∧ parse_price text = .ok (some r)) := by
  constructor
  · intro h
    simp [parse_price, h]
  · intro p ps h hdig
    have hmem : p ∈ findPrices text.data := by rw [h]; exact List.mem_cons_self p ps
    obtain ⟨cs2, rem, htok⟩ := mem_findPrices hmem
    obtain ⟨r, hr⟩ := priceTok_strip_pyFloat htok hdig
    exact ⟨r, hr, by simp [parse_price, h, hr]⟩

/-- Witness for the amended C1: the spec's own scenario
`parse_price "$80.00 to $120.00" = 80.00` (the lower bound of the range,
via the first match `"$80.00"`), and a no-match text yielding `None`. -/
theorem parse_price_amended_witness :
    parse_price "$80.00 to $120.00" = .ok (some 80) ∧
    parse_price "no price here" = .ok none := by
  constructor
  · obtain ⟨r, hr, hpp⟩ := (parse_price_amended "$80.00 to $120.00").2
      "$80.00".data ["$120.00".data] (by decide) (by decide)
    have h80 : pyFloat (stripDollarComma "$80.00".data) = some 80 := by decide
    rw [h80] at hr
    rw [← Option.some.inj hr] at hpp
    exact hpp
  · exact (parse_price_amended "no price here").1 (by decide)

/-- C2: `parse_price` is not total — on `"$,"` the regex matches `"$,"`,
stripping the symbol and separators leaves the empty string, and
`float("")` raises `ValueError`, so the call raises instead of returning a
number or `None`. -/
theorem parse_price_comma_only_raises : parse_price "$," = .error () := rfl

/-- C3: `deal_score` is the sum of four independent additive
contributions — +3 iff the lowercased title contains a brand from the
allow-list (`is_quality_brand`), +2 iff the lowercased shipping text
contains "free", +2 / +1 / +0 by mutually exclusive price tier, and +1 iff
the lowercased condition contains "new" or "open box" — hence always lies
in [0, 8], and the spec's scenario scores 8 with `isQualityBrand = true`. -/
theorem deal_score_decomposition (t s c : String) (p : Rat) :
    deal_score t s c p =
      (if is_quality_brand t then 3 else 0) +
      (if strContains (lowerStr s) "free" then 2 else 0) +
      (if p < 200 then 2 else if p < 350 then 1 else 0) +
      (if strContains (lowerStr c) "new" || strContains (lowerStr c) "open box"
        then 1 else 0) ∧
    deal_score t s c p ≤ 8 ∧
    is_quality_brand "Bose Soundbar 700 Home Theater" = true ∧
    deal_score "Bose Soundbar 700 Home Theater" "Free shipping" "New (Other)" 180 = 8 := by
  refine ⟨?_, ?_, by decide, by decide⟩
  · simp only [deal_score]
    split_ifs <;> omega
  · simp only [deal_score]
    split_ifs <;> omega

theorem rankLE_trans (a b c : Listing) (hab : rankLE a b = true) (hbc : rankLE b c = true) :
    rankLE a c = true := by
  simp only [rankLE, Bool.or_eq_true, Bool.and_eq_true, beq_iff_eq,
    decide_eq_true_eq] at hab hbc ⊢
  rcases hab with h1 | ⟨h1, h2⟩
  · rcases hbc with h3 | ⟨h3, h4⟩
    · exact Or.inl (Nat.lt_trans h3 h1)
    · exact Or.inl (by omega)
  · rcases hbc with h3 | ⟨h3, h4⟩
    · exact Or.inl (by omega)
    · exact Or.inr ⟨by omega, le_trans h2 h4⟩

theorem rankLE_total (a b : Listing) : (rankLE a b || rankLE b a) = true := by
  simp only [rankLE, Bool.or_eq_true, Bool.and_eq_true, beq_iff_eq, decide_eq_true_eq]
  rcases Nat.lt_trichotomy b.deal_score a.deal_score with h | h | h
  · exact Or.inl (Or.inl h)
  · rcases le_total a.price b.price with hp | hp
    · exact Or.inl (Or.inr ⟨h.symm, hp⟩)
    · exact Or.inr (Or.inr ⟨h, hp⟩)
  · exact Or.inr (Or.inl h)

/-- C4: in the ranked output, every adjacent pair is ordered by descending
`deal_score`, with ascending `price` breaking ties — i.e. the output is
sorted ascending lexicographically by the key `(-deal_score, price)`. -/
theorem rankSort_adjacent_sorted (xs : List Listing) :
    List.Chain' (fun a b => b.deal_score ≤ a.deal_score ∧
      (a.deal_score = b.deal_score → a.price ≤ b.price)) (rankSort xs) := by
  have hp : (rankSort xs).Pairwise (fun a b => rankLE a b = true) :=
    List.sorted_mergeSort rankLE_trans rankLE_total xs
  refine List.Chain'.imp ?_ (List.Pairwise.chain' hp)
  intro a b hab
  simp only [rankLE, Bool.or_eq_true, Bool.and_eq_true, beq_iff_eq,
    decide_eq_true_eq] at hab
  rcases hab with h1 | ⟨h1, h2⟩
  · exact ⟨Nat.le_of_lt h1, fun heq => absurd h1 (by omega)⟩
  · exact ⟨Nat.le_of_eq h1.symm, fun _ => h2⟩

/-! ## Deduplicator: specification and properties -/

/-- The spec's description of deduplication, stated independently of the
code's `seen`-set loop: keep the head and recursively drop every later
listing whose canonical key equals the head's (first occurrence wins,
a listing is retained iff its key has not occurred earlier). -/
def specDedup : List Listing → List Listing
  | [] => []
  | x :: t =>
    x :: specDedup (t.filter (fun y => !(canonKey y.link == canonKey x.link)))
termination_by xs => xs.length
decreasing_by
  simp_wf
  have := List.length_filter_le (fun y => !(canonKey y.link == canonKey x.link)) xs
  omega

theorem specDedup_nil : specDedup [] = [] := by
  simp [specDedup]

theorem specDedup_cons (x : Listing) (t : List Listing) :
    specDedup (x :: t) =
      x :: specDedup (t.filter (fun y => !(canonKey y.link == canonKey x.link))) := by
  simp [specDedup]

theorem dedupGo_eq_specDedup :
    ∀ (xs : List Listing) (seen : List String),
      dedupGo seen xs = specDedup (xs.filter (fun x => !(decide (canonKey x.link ∈ seen))))
  | [], seen => by simp [dedupGo, List.filter_nil, specDedup_nil]
  | x :: t, seen => by
    by_cases hx : canonKey x.link ∈ seen
    · rw [show dedupGo seen (x :: t) = dedupGo seen t by simp [dedupGo, hx]]
      rw [dedupGo_eq_specDedup t seen]
      congr 1
      rw [List.filter_cons]
      simp [hx]
    · rw [show dedupGo seen (x :: t) = x :: dedupGo (canonKey x.link :: seen) t by
        simp [dedupGo, hx]]
      rw [dedupGo_eq_specDedup t (canonKey x.link :: seen)]
      rw [List.filter_cons]
      rw [if_pos (by simp [hx])]
      rw [specDedup_cons]
      congr 1
      rw [List.filter_filter]
      congr 1
      apply List.filter_congr
      intro y hy
      simp only [List.mem_cons, decide_eq_true_eq]
      by_cases h1 : canonKey y.link = canonKey x.link
      · simp [h1]
      · by_cases h2 : canonKey y.link ∈ seen <;> simp [h1, h2]

/-- The Deduplicator agrees with the specification `specDedup`. -/
theorem deduplicate_eq_specDedup (xs : List Listing) : deduplicate xs = specDedup xs := by
  rw [deduplicate, dedupGo_eq_specDedup xs []]
  congr 1
  apply List.filter_eq_self.mpr
  intro a ha
  simp

theorem dedupGo_sublist : ∀ (xs : List Listing) (seen : List String),
    (dedupGo seen xs).Sublist xs
  | [], _ => List.Sublist.refl []
  | x :: t, seen => by
    by_cases hx : canonKey x.link ∈ seen
    · rw [show dedupGo seen (x :: t) = dedupGo seen t by simp [dedupGo, hx]]
      exact (dedupGo_sublist t seen).cons x
    · rw [show dedupGo seen (x :: t) = x :: dedupGo (canonKey x.link :: seen) t by
        simp [dedupGo, hx]]
      exact (dedupGo_sublist t (canonKey x.link :: seen)).cons₂ x

/-- Survivors of `dedupGo` have pairwise-distinct canonical keys, none of
them in `seen`. -/
theorem dedupGo_pairwise : ∀ (xs : List Listing) (seen : List String),
    (dedupGo seen xs).Pairwise (fun a b => canonKey a.link ≠ canonKey b.link) ∧
      ∀ y ∈ dedupGo seen xs, canonKey y.link ∉ seen
  | [], _ => ⟨List.Pairwise.nil, by simp [dedupGo]⟩
  | x :: t, seen => by
    by_cases hx : canonKey x.link ∈ seen
    · rw [show dedupGo seen (x :: t) = dedupGo seen t by simp [dedupGo, hx]]
      exact dedupGo_pairwise t seen
    · rw [show dedupGo seen (x :: t) = x :: dedupGo (canonKey x.link :: seen) t by
        simp [dedupGo, hx]]
      obtain ⟨hp, hs⟩ := dedupGo_pairwise t (canonKey x.link :: seen)
      refine ⟨List.Pairwise.cons ?_ hp, ?_⟩
      · intro y hy
        have := hs y hy
        simp only [List.mem_cons, not_or] at this
        exact fun heq => this.1 heq.symm
      · intro y hy
        rcases List.mem_cons.mp hy with rfl | hy2
        · exact hx
        · have := hs y hy2
          simp only [List.mem_cons, not_or] at this
          exact this.2

theorem deduplicate_pairwise (xs : List Listing) :
    (deduplicate xs).Pairwise (fun a b => canonKey a.link ≠ canonKey b.link) :=
  (dedupGo_pairwise xs []).1

/-- On a list whose canonical keys are already pairwise distinct and avoid
`seen`, the dedup loop is the identity. -/
theorem dedupGo_of_pairwise : ∀ (xs : List Listing) (seen : List String),
    xs.Pairwise (fun a b => canonKey a.link ≠ canonKey b.link) →
    (∀ y ∈ xs, canonKey y.link ∉ seen) →
    dedupGo seen xs = xs
  | [], _, _, _ => rfl
  | x :: t, seen, hp, hs => by
    have hx : canonKey x.link ∉ seen := hs x (List.mem_cons_self x t)
    rw [show dedupGo seen (x :: t) = x :: dedupGo (canonKey x.link :: seen) t by
      simp [dedupGo, hx]]
    obtain ⟨hhead, htail⟩ := List.pairwise_cons.mp hp
    rw [dedupGo_of_pairwise t (canonKey x.link :: seen) htail ?_]
    intro y hy
    simp only [List.mem_cons, not_or]
    exact ⟨fun heq => hhead y hy heq.symm, hs y (List.mem_cons_of_mem x hy)⟩

/-- Two listings that surface the same item from different queries: same
canonical link, different query strings (and different prices/queries). -/
def sampleHashAbc : Listing :=
  { title := "Bose Soundbar 700 Home Theater", price := 180,
    shipping := "Free shipping", condition := "New (Other)",
    link := ".../itm/123?hash=abc", brand_match := true, deal_score := 8 }

def sampleHashXyz : Listing :=
  { title := "Bose Soundbar 700 Home Theater System", price := 175,
    shipping := "+$20.00 shipping", condition := "Open box",
    link := ".../itm/123?hash=xyz", brand_match := true, deal_score := 6 }

/-- C5: the Deduplicator retains a listing iff its canonical key — the
detail link cut at the first `'?'` — has not occurred earlier (first
occurrence wins): it equals `specDedup`, which keeps each head and deletes
every later listing with the head's key.  In particular the two listings
with links `.../itm/123?hash=abc` and `.../itm/123?hash=xyz` share the
canonical key `.../itm/123` and collapse to the earlier one. -/
theorem deduplicate_first_occurrence (xs : List Listing) :
    deduplicate xs = specDedup xs ∧
    canonKey sampleHashAbc.link = ".../itm/123" ∧
    canonKey sampleHashXyz.link = ".../itm/123" ∧
    deduplicate [sampleHashAbc, sampleHashXyz] = [sampleHashAbc] :=
  ⟨deduplicate_eq_specDedup xs, by decide, by decide, by decide⟩

/-- C7: the Deduplicator is idempotent, and its output is a subsequence of
its input (the relative order of the surviving first occurrences is the
input order). -/
theorem deduplicate_idempotent_sublist (xs : List Listing) :
    deduplicate (deduplicate xs) = deduplicate xs ∧
    (deduplicate xs).Sublist xs := by
  refine ⟨?_, dedupGo_sublist xs []⟩
  exact dedupGo_of_pairwise (deduplicate xs) [] (deduplicate_pairwise xs) (by simp)

/-- C6: the displayed report is exactly the ranked listings with
`deal_score ≥ 3`; when no listing reaches 3, it is instead the 15
highest-ranked listings; in either case at most 20 rows are displayed. -/
theorem displayed_selection_policy (ranked : List Listing) :
    displayed ranked =
      (if ranked.any (fun l => decide (3 ≤ l.deal_score)) then
        (ranked.filter (fun l => decide (3 ≤ l.deal_score))).take 20
      else ranked.take 15) ∧
    (displayed ranked).length ≤ 20 := by
  constructor
  · simp only [displayed, selectTop]
    by_cases h : (ranked.filter (fun l => decide (3 ≤ l.deal_score))).isEmpty
    · rw [if_pos h]
      rw [List.isEmpty_iff, List.filter_eq_nil_iff] at h
      have hany : ranked.any (fun l => decide (3 ≤ l.deal_score)) = false :=
        List.any_eq_false.mpr h
      rw [hany, if_neg (by simp), List.take_take]
      norm_num
    · rw [if_neg h]
      have hne : ranked.filter (fun l => decide (3 ≤ l.deal_score)) ≠ [] := by
        intro hnil
        exact h (by simp [hnil])
      obtain ⟨b, hbmem⟩ := List.exists_mem_of_ne_nil _ hne
      have hany : ranked.any (fun l => decide (3 ≤ l.deal_score)) = true := by
        rw [List.any_eq_true]
        obtain ⟨hmem, hp⟩ := List.mem_filter.mp hbmem
        exact ⟨b, hmem, hp⟩
      rw [hany, if_pos rfl]
  · simp only [displayed]
    have := List.length_take_le 20 (selectTop ranked)
    omega

/-! ## Extraction invariants -/

theorem extract_listing_price {it : SItem} {l : Listing}
    (h : extract_listing it = .ok (some l)) :
    ∃ pt, it.priceText? = some pt ∧ parse_price pt = .ok (some l.price) := by
  obtain ⟨t0, p0, k0, s0, c0⟩ := it
  cases t0 with
  | none => exact absurd h (by simp [extract_listing])
  | some title =>
    cases p0 with
    | none => exact absurd h (by simp [extract_listing])
    | some priceText =>
      cases k0 with
      | none => exact absurd h (by simp [extract_listing])
      | some href =>
        simp only [extract_listing] at h
        split at h
        · exact absurd h (by simp)
        · cases hpp : parse_price priceText with
          | error e => rw [hpp] at h; exact absurd h (by simp)
          | ok r =>
            cases r with
            | none => rw [hpp] at h; exact absurd h (by simp)
            | some price =>
              rw [hpp] at h
              simp only [Except.ok.injEq, Option.some.injEq] at h
              refine ⟨priceText, rfl, ?_⟩
              rw [hpp, ← h]

theorem extract_page_mem :
    ∀ {items : List SItem} {ls : List Listing}, extract_page items = .ok ls →
      ∀ {l : Listing}, l ∈ ls → ∃ it ∈ items, extract_listing it = .ok (some l)
  | [], ls, h, l, hl => by
    simp only [extract_page, Except.ok.injEq] at h
    rw [← h] at hl
    exact absurd hl (List.not_mem_nil l)
  | it :: rest, ls, h, l, hl => by
    simp only [extract_page] at h
    cases hext : extract_listing it with
    | error e => rw [hext] at h; exact absurd h (by simp)
    | ok l? =>
      rw [hext] at h
      cases hrest : extract_page rest with
      | error e => rw [hrest] at h; exact absurd h (by simp)
      | ok ls' =>
        rw [hrest] at h
        cases l? with
        | some x =>
          simp only [Except.ok.injEq] at h
          rw [← h] at hl
          rcases List.mem_cons.mp hl with rfl | h2
          · exact ⟨it, List.mem_cons_self it rest, hext⟩
          · obtain ⟨it2, hit2, hext2⟩ := extract_page_mem hrest h2
            exact ⟨it2, List.mem_cons_of_mem it hit2, hext2⟩
        | none =>
          simp only [Except.ok.injEq] at h
          rw [← h] at hl
          obtain ⟨it2, hit2, hext2⟩ := extract_page_mem hrest hl
          exact ⟨it2, List.mem_cons_of_mem it hit2, hext2⟩

theorem mem_selectTop {R : List Listing} {l : Listing} (h : l ∈ selectTop R) : l ∈ R := by
  simp only [selectTop] at h
  by_cases he : (R.filter (fun l => decide (3 ≤ l.deal_score))).isEmpty
  · rw [if_pos he] at h
    exact List.take_subset 15 R h
  · rw [if_neg he] at h
    exact (List.filter_sublist R).subset h

theorem mem_displayed {R : List Listing} {l : Listing} (h : l ∈ displayed R) : l ∈ R :=
  mem_selectTop (List.take_subset 20 (selectTop R) h)

/-- C8: every listing retained past the Price Parser stage carries a price
that `parse_price` actually produced from its node's price text (so no
retained listing has an unparsed/absent price), and the invariant persists
through the accumulated, deduplicated, ranked and displayed sequences. -/
theorem retained_price_parsed (items : List SItem) (ls : List Listing)
    (h : extract_page items = .ok ls) (l : Listing)
    (hl : l ∈ ls ∨ l ∈ deduplicate ls ∨ l ∈ displayed (rankSort (deduplicate ls))) :
    ∃ it ∈ items, ∃ pt, it.priceText? = some pt ∧ parse_price pt = .ok (some l.price) := by
  have hmem : l ∈ ls := by
    rcases hl with h1 | h1 | h1
    · exact h1
    · exact (dedupGo_sublist ls []).subset h1
    · have h2 : l ∈ rankSort (deduplicate ls) := mem_displayed h1
      have h3 : l ∈ deduplicate ls := List.mem_mergeSort.mp h2
      exact (dedupGo_sublist ls []).subset h3
  obtain ⟨it, hit, hext⟩ := extract_page_mem h hmem
  obtain ⟨pt, hpt, hpp⟩ := extract_listing_price hext
  exact ⟨it, hit, pt, hpt, hpp⟩

/-- A fully populated candidate node. -/
def sampleItem : SItem :=
  { title? := some "Bose Soundbar 700 Home Theater",
    priceText? := some "$180.00",
    linkHref? := some (some "https://www.ebay.com/itm/1?hash=a"),
    shipping? := some "Free shipping",
    condition? := some "New (Other)" }

/-- The listing the extractor produces from `sampleItem`. -/
def sampleExtracted : Listing :=
  { title := "Bose Soundbar 700 Home Theater", price := 180,
    shipping := "Free shipping", condition := "New (Other)",
    link := "https://www.ebay.com/itm/1?hash=a",
    brand_match := true, deal_score := 8 }

example : extract_listing sampleItem = .ok (some sampleExtracted) := rfl
example : extract_page [sampleItem] = .ok [sampleExtracted] := rfl

/-- Witness for C8 at a concrete page. -/
theorem retained_price_parsed_witness :
    ∃ it ∈ [sampleItem], ∃ pt, it.priceText? = some pt ∧
      parse_price pt = .ok (some sampleExtracted.price) :=
  retained_price_parsed [sampleItem] [sampleExtracted] rfl sampleExtracted
    (Or.inl (List.mem_cons_self sampleExtracted []))

/-- C9: the Listing Extractor emits nothing for a node missing title,
price, or detail link, or whose title case-insensitively starts with
"shop on ebay"; every retained node's shipping and condition fields
default to the "N/A" sentinel when the corresponding element is absent. -/
theorem extract_exclusion_rules (it : SItem) :
    ((it.title? = none ∨ it.priceText? = none ∨ it.linkHref? = none) →
      extract_listing it = .ok none) ∧
    (∀ t, it.title? = some t → strStartsWith (lowerStr t) "shop on ebay" = true →
      extract_listing it = .ok none) ∧
    (∀ l, extract_listing it = .ok (some l) →
      (it.shipping? = none → l.shipping = "N/A") ∧
      (it.condition? = none → l.condition = "N/A")) := by
  obtain ⟨t0, p0, k0, s0, c0⟩ := it
  refine ⟨?_, ?_, ?_⟩
  · rintro (h | h | h)
    · replace h : t0 = none := h
      subst h
      cases p0 <;> cases k0 <;> rfl
    · replace h : p0 = none := h
      subst h
      cases t0 <;> cases k0 <;> rfl
    · replace h : k0 = none := h
      subst h
      cases t0 <;> cases p0 <;> rfl
  · rintro t rfl hshop
    cases p0 with
    | none => rfl
    | some priceText =>
      cases k0 with
      | none => rfl
      | some href =>
        simp [extract_listing, hshop]
  · intro l h
    cases t0 with
    | none => exact absurd h (by simp [extract_listing])
    | some title =>
      cases p0 with
      | none => exact absurd h (by simp [extract_listing])
      | some priceText =>
        cases k0 with
        | none => exact absurd h (by simp [extract_listing])
        | some href =>
          simp only [extract_listing] at h
          split at h
          · exact absurd h (by simp)
          · cases hpp : parse_price priceText with
            | error e => rw [hpp] at h; exact absurd h (by simp)
            | ok r =>
              cases r with
              | none => rw [hpp] at h; exact absurd h (by simp)
              | some price =>
                rw [hpp] at h
                simp only [Except.ok.injEq, Option.some.injEq] at h
                rw [← h]
                constructor
                · rintro rfl; rfl
                · rintro rfl; rfl

/-- A node with no price element. -/
def nodeNoPrice : SItem :=
  { title? := some "Mystery speakers", priceText? := none,
    linkHref? := some (some "https://www.ebay.com/itm/2"),
    shipping? := some "Free shipping", condition? := some "New" }

/-- A placeholder node titled "SHOP ON EBAY" (uppercase variant), with all
other fields present. -/
def nodeShop : SItem :=
  { title? := some "SHOP ON EBAY", priceText? := some "$10.00",
    linkHref? := some (some "https://www.ebay.com/itm/3"),
    shipping? := some "Free shipping", condition? := some "New" }

/-- A retained node with shipping and condition elements absent. -/
def nodeNoShip : SItem :=
  { title? := some "Generic speakers", priceText? := some "$250.00",
    linkHref? := some (some "https://www.ebay.com/itm/4"),
    shipping? := none, condition? := none }

/-- The listing the extractor produces from `nodeNoShip`. -/
def extractedNoShip : Listing :=
  { title := "Generic speakers", price := 250, shipping := "N/A",
    condition := "N/A", link := "https://www.ebay.com/itm/4",
    brand_match := false, deal_score := 1 }

example : extract_listing nodeNoShip = .ok (some extractedNoShip) := rfl

/-- Witness for C9: a missing price excludes a node, a "SHOP ON EBAY"
title (any letter case) excludes a node, and a retained node with absent
shipping/condition elements gets the "N/A" defaults. -/
theorem extract_exclusion_rules_witness :
    extract_listing nodeNoPrice = .ok none ∧
    extract_listing nodeShop = .ok none ∧
    extractedNoShip.shipping = "N/A" ∧
    extractedNoShip.condition = "N/A" := by
  refine ⟨?_, ?_, ?_, ?_⟩
  · exact (extract_exclusion_rules nodeNoPrice).1 (Or.inr (Or.inl rfl))
  · exact (extract_exclusion_rules nodeShop).2.1 "SHOP ON EBAY" rfl (by decide)
  · exact ((extract_exclusion_rules nodeNoShip).2.2 extractedNoShip rfl).1 rfl
  · exact ((extract_exclusion_rules nodeNoShip).2.2 extractedNoShip rfl).2 rfl

/-- A surviving list with pairwise-distinct canonical keys contains at
most one listing whose raw link is the empty string. -/
theorem pairwise_filter_empty_link_le_one :
    ∀ {xs : List Listing},
      xs.Pairwise (fun a b => canonKey a.link ≠ canonKey b.link) →
      (xs.filter (fun l => l.link == "")).length ≤ 1
  | [], _ => by simp
  | x :: t, hp => by
    obtain ⟨hx, ht⟩ := List.pairwise_cons.mp hp
    rw [List.filter_cons]
    by_cases hxe : x.link = ""
    · rw [if_pos (by simp [hxe])]
      have hnil : t.filter (fun l => l.link == "") = [] := by
        rw [List.filter_eq_nil_iff]
        intro y hy hye
        rw [beq_iff_eq] at hye
        exact hx y hy (by rw [hxe, hye])
      rw [hnil]
      simp
    · rw [if_neg (by simp [hxe])]
      exact Nat.le_trans (pairwise_filter_empty_link_le_one ht) (Nat.le_refl 1)

/-- A candidate node whose `a` element has no `href`. -/
def nodeNoHrefA : SItem :=
  { title? := some "Bose speakers", priceText? := some "$150.00",
    linkHref? := some none,
    shipping? := some "Free shipping", condition? := some "New" }

/-- Listings as extracted from two distinct no-`href` nodes: all fields
differ except the defaulted empty link. -/
def noHrefFirst : Listing :=
  { title := "Bose speakers", price := 150, shipping := "Free shipping",
    condition := "New", link := "", brand_match := true, deal_score := 8 }

def noHrefSecond : Listing :=
  { title := "Generic soundbar", price := 400, shipping := "+$25.00 shipping",
    condition := "Used", link := "", brand_match := false, deal_score := 0 }

example : extract_listing nodeNoHrefA = .ok (some noHrefFirst) := rfl

/-- C10 (implicit): a retained listing whose anchor has no `href` gets the
empty string as its detail link; the empty string is its own canonical
key, so across a run the Deduplicator keeps at most one listing with an
empty link — every later one is dropped even when all its other fields
differ from the survivor's. -/
theorem missing_href_collapse (xs : List Listing) :
    (∀ (it : SItem) (l : Listing), it.linkHref? = some none →
      extract_listing it = .ok (some l) → l.link = "") ∧
    canonKey "" = "" ∧
    ((deduplicate xs).filter (fun l => l.link == "")).length ≤ 1 ∧
    deduplicate [noHrefFirst, noHrefSecond] = [noHrefFirst] := by
  refine ⟨?_, rfl, pairwise_filter_empty_link_le_one (deduplicate_pairwise xs), by decide⟩
  intro it l hhref h
  obtain ⟨t0, p0, k0, s0, c0⟩ := it
  replace hhref : k0 = some none := hhref
  subst hhref
  cases t0 with
  | none => exact absurd h (by simp [extract_listing])
  | some title =>
    cases p0 with
    | none => exact absurd h (by simp [extract_listing])
    | some priceText =>
      simp only [extract_listing] at h
      split at h
      · exact absurd h (by simp)
      · cases hpp : parse_price priceText with
        | error e => rw [hpp] at h; exact absurd h (by simp)
        | ok r =>
          cases r with
          | none => rw [hpp] at h; exact absurd h (by simp)
          | some price =>
            rw [hpp] at h
            simp only [Except.ok.injEq, Option.some.injEq] at h
            rw [← h]
            rfl

/-- Witness for C10 at a concrete no-`href` node. -/
theorem missing_href_collapse_witness : noHrefFirst.link = "" :=
  (missing_href_collapse []).1 nodeNoHrefA noHrefFirst rfl rfl
